import Mathlib

/-!
# chatMoji: the hub control loop and the two per-client loops

A shallow embedding of `model.go`.

* A `*Client` is identified by its address, a natural number.
* A Go channel `chan *DataSent` is a buffer plus a closed flag; sending on a
  closed channel and closing a closed channel are run-time panics.
* The hub goroutine (`Hub.run`) is a step function over the events it receives
  on its three unbuffered channels; every step returns the new state together
  with the list of channel and map operations it performed, or a panic.
* The connection (`websocket.Conn`) and `encoding/json` are external: their
  results are inputs of the model.
-/

namespace ChatMoji

/-! ## Data model -/

/-- The address of a `Client` object (`*Client`); map keys compare by address. -/
abbrev ClientId := Nat

/-- The struct `DataSent`; `Time` is a nullable pointer to an instant, here in
nanoseconds. -/
structure DataSent where
  Data : String
  Name : String
  Time : Option Int
deriving DecidableEq, Repr

/-- The constructor `newDataSent`: empty strings and a nil time. -/
def newDataSent : DataSent := { Data := "", Name := "", Time := none }

/-- The state of one channel `chan *DataSent`: the buffered elements, oldest
first, and whether `close` has been called on it. -/
structure Chan where
  buf : List DataSent
  closed : Bool
deriving DecidableEq, Repr

/-- The capacity of `Client.send`, from `make(chan *DataSent, 1)` in `serveWS`. -/
def sendCap : Nat := 1

/-- The channel just after `make(chan *DataSent, 1)`: open and empty. -/
def Chan.fresh : Chan := { buf := [], closed := false }

/-- Whether a non-blocking send finds room in the buffer. -/
def Chan.hasRoom (ch : Chan) : Bool := decide (ch.buf.length < sendCap)

/-- Run-time panics of the Go channel operations used by the hub. -/
inductive Panic where
  | sendOnClosed
  | closeOfClosed
deriving DecidableEq, Repr

/-- The operations of the hub loop and of a consumer that the properties count. -/
inductive Effect where
  /-- The send `client.send <- message` succeeded. -/
  | sent (c : ClientId) (m : DataSent)
  /-- The call `close(client.send)` succeeded. -/
  | closed (c : ClientId)
  /-- The call `delete(h.clients, client)` removed a present key. -/
  | deleted (c : ClientId)
  /-- The receive `<-c.send` of the outbound loop returned an element. -/
  | recvd (c : ClientId) (m : DataSent)
  /-- The receive `<-c.send` returned the zero value with `ok = false`. -/
  | recvdClosed (c : ClientId)
deriving DecidableEq, Repr

/-- The hub together with the `send` channels it reaches through its keys.
`clients` lists the keys of the map `h.clients` (a map has each key once), in
the order in which the next `range` yields them; Go leaves that order
unspecified, see `Hub.reorder`.
`send c` is the channel `c.send` of the client at address `c`. The three event
channels are unbuffered and appear as the events of `Hub.step`. -/
structure Hub where
  clients : List ClientId
  keysNodup : clients.Nodup
  send : ClientId → Chan

/-- The result of a piece of the hub loop: a panic, or the new state with the
operations performed. -/
abbrev Res := Except Panic (Hub × List Effect)

/-- Sequencing of two pieces of the loop; a panic stops the goroutine. -/
def andThen (r : Res) (f : Hub → Res) : Res :=
  match r with
  | .error p => .error p
  | .ok (h, e1) =>
    match f h with
    | .error p => .error p
    | .ok (h', e2) => .ok (h', e1 ++ e2)

/-- The hub of `newHub`: an empty map; every client that will be created has a
fresh `send` channel (`serveWS`). -/
def Hub.empty : Hub := { clients := [], keysNodup := List.nodup_nil, send := fun _ => Chan.fresh }

/-- Replace the state of the channel `c.send`. -/
def Hub.setChan (h : Hub) (c : ClientId) (ch : Chan) : Hub :=
  { h with send := fun x => if x = c then ch else h.send x }

/-- The assignment `h.clients[client] = true`. -/
def Hub.insertClient (h : Hub) (c : ClientId) : Hub :=
  { h with clients := List.insert c h.clients, keysNodup := h.keysNodup.insert }

/-- The call `delete(h.clients, client)`, made only for a present key. -/
def Hub.deleteClient (h : Hub) (c : ClientId) : Res :=
  .ok ({ h with clients := h.clients.erase c, keysNodup := h.keysNodup.erase c }, [.deleted c])

/-- The call `close(client.send)`: panics on a closed channel. -/
def Hub.closeChan (h : Hub) (c : ClientId) : Res :=
  if (h.send c).closed then .error .closeOfClosed
  else .ok (h.setChan c { buf := (h.send c).buf, closed := true }, [.closed c])

/-- One iteration of the range loop of the broadcast case:
`select { case client.send <- message: default: close(client.send); delete(h.clients, client) }`.
A send on a closed channel is ready and panics; otherwise the send is taken
when the buffer has room, and the default branch when it is full. -/
def Hub.visit (m : DataSent) (c : ClientId) (h : Hub) : Res :=
  if (h.send c).closed then .error .sendOnClosed
  else if (h.send c).hasRoom then
    .ok (h.setChan c { buf := (h.send c).buf ++ [m], closed := false }, [.sent c m])
  else andThen (h.closeChan c) (fun h1 => h1.deleteClient c)

/-- The loop `for client := range h.clients` over the keys present when the loop
starts; the body deletes only the key being visited. -/
def Hub.broadcastLoop (m : DataSent) : List ClientId → Hub → Res
  | [], h => .ok (h, [])
  | c :: rest, h => andThen (h.visit m c) (Hub.broadcastLoop m rest)

/-- The events the hub receives: on `h.join`, `h.disconnect` and `h.broadcast`. -/
inductive Event where
  | join (c : ClientId)
  | disconnect (c : ClientId)
  | broadcast (m : DataSent)
deriving DecidableEq, Repr

/-- One iteration of the `for { select { ... } }` of `Hub.run`. -/
def Hub.step (e : Event) (h : Hub) : Res :=
  match e with
  | .join c => .ok (h.insertClient c, [])
  | .disconnect c =>
    if c ∈ h.clients then andThen (h.deleteClient c) (fun h1 => h1.closeChan c)
    else .ok (h, [])
  | .broadcast m => h.broadcastLoop m h.clients

/-- The receive `case data, ok := <-c.send` of the outbound loop of client `c`,
as far as the channel is concerned: it takes the oldest buffered element; on an
empty closed channel it returns the closed signal; on an empty open channel the
case is not ready and nothing happens. -/
def Hub.recv (c : ClientId) (h : Hub) : Res :=
  match (h.send c).buf with
  | m :: rest => .ok (h.setChan c { buf := rest, closed := (h.send c).closed }, [.recvd c m])
  | [] => if (h.send c).closed then .ok (h, [.recvdClosed c]) else .ok (h, [])

/-- The order in which `range h.clients` yields the keys is unspecified and may
differ from one loop to the next: the keys may be rearranged at any time. A
list that is not a rearrangement of the keys is ignored. -/
def Hub.reorder (ks : List ClientId) (h : Hub) : Res :=
  if hp : ks.Perm h.clients then
    .ok ({ h with clients := ks, keysNodup := hp.nodup_iff.mpr h.keysNodup }, [])
  else .ok (h, [])

/-- What happens in the system, one at a time: the hub processes an event, the
outbound loop of a client receives from its `send` channel, or the iteration
order of the map changes. -/
inductive Action where
  | hub (e : Event)
  | recv (c : ClientId)
  | reorder (ks : List ClientId)
deriving DecidableEq, Repr

/-- One action. -/
def Hub.act (a : Action) (h : Hub) : Res :=
  match a with
  | .hub e => h.step e
  | .recv c => h.recv c
  | .reorder ks => h.reorder ks

/-- A finite execution of the system: the actions in order, stopping at a panic.
The hub part is the loop of `Hub.run`, one `Hub.step` per event. -/
def Hub.exec : List Action → Hub → Res
  | [], h => .ok (h, [])
  | a :: rest, h => andThen (h.act a) (Hub.exec rest)

/-- The clients joined by a run, in order, with repetitions. -/
def joins : List Action → List ClientId
  | [] => []
  | .hub (.join c) :: rest => c :: joins rest
  | _ :: rest => joins rest

/-- The envelopes of the broadcast events of a run, in order. -/
def bcasts : List Action → List DataSent
  | [] => []
  | .hub (.broadcast m) :: rest => m :: bcasts rest
  | _ :: rest => bcasts rest

/-- The envelopes of the broadcast events the hub processes after the first
join of `s`. -/
def bcastsAfterJoin (s : ClientId) : List Action → List DataSent
  | [] => []
  | .hub (.join c) :: rest => if c = s then bcasts rest else bcastsAfterJoin s rest
  | _ :: rest => bcastsAfterJoin s rest

/-- The envelopes the outbound loop of `s` has received, in order. -/
def delivered (s : ClientId) : List Effect → List DataSent
  | [] => []
  | .recvd c m :: rest => if c = s then m :: delivered s rest else delivered s rest
  | _ :: rest => delivered s rest

/-- The invariant of the live set: every key of the map has an open channel. -/
def Hub.LiveOpen (h : Hub) : Prop := ∀ c ∈ h.clients, (h.send c).closed = false

/-! ## Constants -/

/-- The constant `time.Second`, in nanoseconds (a `time.Duration` is an int64
count of nanoseconds). -/
def second : Int := 1000000000

/-- The constant `writeTime`. -/
def writeTime : Int := 20 * second

/-- The constant `pongPeriod`. -/
def pongPeriod : Int := 10 * second

/-- The constant `pingPeriod`, with the source's expression. -/
def pingPeriod : Int := 8 * pongPeriod / 10

/-- The constant `readLimit`. -/
def readLimit : Int := 512

/-- Whether a value is representable as an int64. -/
def inInt64 (x : Int) : Prop := -(2 : Int) ^ 63 ≤ x ∧ x < (2 : Int) ^ 63

/-! ## The inbound loop `Client.readContent` -/

/-- The payload of a frame. -/
abbrev Bytes := List UInt8

/-- What a call of `c.conn.ReadMessage()` meets, in order: a pong control frame
arriving at some instant (the connection runs the pong handler and keeps
reading), a data frame returned without error, or an error, with whether
`websocket.IsUnexpectedCloseError` holds of it. -/
inductive ReadEvent where
  | pong (now : Int)
  | frame (message : Bytes)
  | err (unexpectedClose : Bool)
deriving DecidableEq, Repr

/-- The calls `readContent` makes on the connection, the hub and the log. -/
inductive ReadOp where
  | setReadLimit (n : Int)
  | setReadDeadline (t : Int)
  | setPongHandler
  | logUnexpectedClose
  | logUnmarshalError
  /-- The send `c.hub.broadcast <- data`. -/
  | broadcast (d : DataSent)
  /-- The send `c.hub.disconnect <- c`. -/
  | disconnect
  /-- The call `c.conn.Close()`. -/
  | connClose
deriving DecidableEq, Repr

/-- The pong handler installed by `readContent`, run at instant `now`. -/
def pongHandler (now : Int) : ReadOp := .setReadDeadline (now + pongPeriod)

/-- The `for` loop of `readContent`. `unmarshal message data` stands for
`json.Unmarshal(message, data)`: the contents of `data` afterwards and whether
the error is non-nil. The second component tells whether the loop returned; it
is false when the events end with the loop waiting in `ReadMessage`. -/
def readLoop (unmarshal : Bytes → DataSent → DataSent × Bool) : List ReadEvent → List ReadOp × Bool
  | [] => ([], false)
  | .pong now :: rest =>
    (pongHandler now :: (readLoop unmarshal rest).1, (readLoop unmarshal rest).2)
  | .err unexpected :: _ => (if unexpected then [.logUnexpectedClose] else [], true)
  | .frame message :: rest =>
    ((if (unmarshal message newDataSent).2 then [ReadOp.logUnmarshalError] else [])
        ++ .broadcast (unmarshal message newDataSent).1 :: (readLoop unmarshal rest).1,
      (readLoop unmarshal rest).2)

/-- The function `readContent`, started at instant `now`: the set-up calls, the
loop, and the deferred function when the loop returns. -/
def readContent (unmarshal : Bytes → DataSent → DataSent × Bool) (now : Int)
    (evs : List ReadEvent) : List ReadOp × Bool :=
  ([.setReadLimit readLimit, .setReadDeadline (now + pongPeriod), .setPongHandler]
      ++ (readLoop unmarshal evs).1
      ++ (if (readLoop unmarshal evs).2 then [.disconnect, .connClose] else []),
    (readLoop unmarshal evs).2)

/-! ## The outbound loop `Client.writeContent` -/

/-- The errors the connection returns during one iteration of the data case:
from `WriteMessage(websocket.CloseMessage, ...)`, `NextWriter`, `w.Write` and
`w.Close()`; true means a non-nil error. -/
structure ConnResults where
  closeFrameErr : Bool
  nextWriterErr : Bool
  writeErr : Bool
  writerCloseErr : Bool
deriving DecidableEq, Repr

/-- The case the `select` of `writeContent` takes: a receive from `c.send` with
its two results (`data` may be nil, `ok` is false on a closed channel) and the
connection's results, or a tick with whether the ping write failed. -/
inductive WriteEvent where
  | recv (data : Option DataSent) (ok : Bool) (r : ConnResults)
  | tick (pingErr : Bool)
deriving DecidableEq, Repr

/-- The calls `writeContent` makes on the connection, the ticker and the log. -/
inductive WriteOp where
  | newTicker (d : Int)
  | setWriteDeadlineZero
  /-- The call `c.conn.WriteMessage(websocket.CloseMessage, []byte{})`. -/
  | writeCloseFrame
  /-- The call `c.conn.NextWriter(websocket.TextMessage)`. -/
  | nextWriter
  | logNextWriter
  | logMarshal
  /-- The call `w.Write(msg)`. -/
  | write (msg : Bytes)
  /-- The call `w.Close()`. -/
  | writerClose
  | logWriterClose
  /-- The call `c.conn.WriteMessage(websocket.PingMessage, nil)`. -/
  | writePing
  | logPing
  | tickerStop
  /-- The call `c.conn.Close()`. -/
  | connClose
  | logClosing
deriving DecidableEq, Repr

/-- How the loop of `writeContent` stands at the end of the events: still
waiting in `select`, returned, or stopped by the nil pointer dereference
`*data`. -/
inductive Exit where
  | waiting
  | returned
  | nilDeref
deriving DecidableEq, Repr

/-- One iteration of the `select` of `writeContent`; `none` means the loop goes
on. `marshal d` stands for `json.Marshal(d)`: the bytes and whether the error
is non-nil. -/
def writeIter (marshal : DataSent → Bytes × Bool) : WriteEvent → List WriteOp × Option Exit
  | .recv data ok r =>
    if r.nextWriterErr then
      ((if ok then [] else [WriteOp.writeCloseFrame]) ++ [.nextWriter, .logNextWriter], some .returned)
    else
      match data with
      | none => ((if ok then [] else [WriteOp.writeCloseFrame]) ++ [.nextWriter], some .nilDeref)
      | some d =>
        if r.writerCloseErr then
          ((if ok then [] else [WriteOp.writeCloseFrame]) ++ [.nextWriter]
              ++ (if (marshal d).2 then [WriteOp.logMarshal] else [])
              ++ [.write (marshal d).1, .writerClose, .logWriterClose], some .returned)
        else
          ((if ok then [] else [WriteOp.writeCloseFrame]) ++ [.nextWriter]
              ++ (if (marshal d).2 then [WriteOp.logMarshal] else [])
              ++ [.write (marshal d).1, .writerClose], none)
  | .tick pingErr =>
    if pingErr then ([.writePing, .logPing], some .returned) else ([.writePing], none)

/-- The `for` loop of `writeContent`. -/
def writeLoop (marshal : DataSent → Bytes × Bool) : List WriteEvent → List WriteOp × Exit
  | [] => ([], .waiting)
  | e :: rest =>
    match (writeIter marshal e).2 with
    | some x => ((writeIter marshal e).1, x)
    | none => ((writeIter marshal e).1 ++ (writeLoop marshal rest).1, (writeLoop marshal rest).2)

/-- The function `writeContent`: the set-up calls, the loop, and the deferred
function, which runs when the loop returns and also when it panics. -/
def writeContent (marshal : DataSent → Bytes × Bool) (evs : List WriteEvent) :
    List WriteOp × Exit :=
  ([.newTicker pingPeriod, .setWriteDeadlineZero]
      ++ (writeLoop marshal evs).1
      ++ (if (writeLoop marshal evs).2 = .waiting then [] else [.tickerStop, .connClose, .logClosing]),
    (writeLoop marshal evs).2)

/-! ## Auxiliary definitions of the proofs -/

/-- The channel a visit of the broadcast loop leaves behind when it does not panic. -/
def Chan.offered (ch : Chan) (m : DataSent) : Chan :=
  if ch.hasRoom then { buf := ch.buf ++ [m], closed := false } else { buf := ch.buf, closed := true }

/-- The operations of a visit of the broadcast loop that does not panic. -/
def visitEffects (h : Hub) (m : DataSent) (c : ClientId) : List Effect :=
  if (h.send c).hasRoom then [.sent c m] else [.closed c, .deleted c]

/-- The invariant carried along an execution in which no client is joined
twice: live clients have open channels, and a client still to be joined is not
in the map and has an open channel. -/
def Hub.Inv (h : Hub) (todo : List Action) : Prop :=
  h.LiveOpen ∧ (∀ c ∈ joins todo, c ∉ h.clients ∧ (h.send c).closed = false) ∧ (joins todo).Nodup

/-- The envelopes sent on `c.hub.broadcast`, in order. -/
def forwarded : List ReadOp → List DataSent
  | [] => []
  | .broadcast d :: rest => d :: forwarded rest
  | _ :: rest => forwarded rest

/-- The read deadlines installed, in order. -/
def deadlines : List ReadOp → List Int
  | [] => []
  | .setReadDeadline t :: rest => t :: deadlines rest
  | _ :: rest => deadlines rest

/-- The payloads of the frames `ReadMessage` returns before its first error. -/
def framesRead : List ReadEvent → List Bytes
  | [] => []
  | .pong _ :: rest => framesRead rest
  | .frame message :: rest => message :: framesRead rest
  | .err _ :: _ => []

/-- The instants of the pongs handled before the first read error. -/
def pongTimes : List ReadEvent → List Int
  | [] => []
  | .pong now :: rest => now :: pongTimes rest
  | .frame _ :: rest => pongTimes rest
  | .err _ :: _ => []

/-! ## Sample inputs -/

/-- A sample envelope. -/
def hello : DataSent := { Data := "hi", Name := "A", Time := none }

/-- Three live clients; the queue of client 2 is full, the others are empty. -/
def hubOneFull : Hub :=
  { clients := [1, 2, 3], keysNodup := by decide,
    send := fun c => if c = 2 then { buf := [hello], closed := false } else Chan.fresh }

/-- A decoder that rejects every payload and leaves `data` as it was, as
`json.Unmarshal` does on a syntax error. -/
def rejectAll : Bytes → DataSent → DataSent × Bool := fun _ d => (d, true)

/-- An encoder that never fails. -/
def encodeEmpty : DataSent → Bytes × Bool := fun _ => ([], false)

/-- The connection results when `NextWriter` fails, as it does once a close
frame has been written. -/
def afterCloseFrame : ConnResults :=
  { closeFrameErr := false, nextWriterErr := true, writeErr := false, writerCloseErr := false }

/-- A sample execution: two clients join, the map is iterated in another order,
one client is evicted by a second broadcast, and leave events arrive for both,
twice for the evicted one. -/
def sampleRun : List Action :=
  [.hub (.join 1), .hub (.join 2), .reorder [1, 2], .hub (.broadcast hello), .recv 1,
   .hub (.broadcast hello), .hub (.disconnect 2), .hub (.disconnect 2), .hub (.disconnect 1)]

/-! # Theorems

## Basic facts about the hub loop -/

theorem andThen_eq_ok {r : Res} {f : Hub → Res} {h' : Hub} {e : List Effect} :
    andThen r f = .ok (h', e) ↔
      ∃ h1 e1 e2, r = .ok (h1, e1) ∧ f h1 = .ok (h', e2) ∧ e = e1 ++ e2 := by
  constructor
  · intro hr
    unfold andThen at hr
    split at hr
    · cases hr
    · rename_i h1 e1
      split at hr
      · cases hr
      · rename_i h2 e2 hf
        injection hr with hr
        injection hr with hh he
        subst hh
        exact ⟨h1, e1, e2, rfl, hf, he.symm⟩
  · rintro ⟨h1, e1, e2, hr, hf, rfl⟩
    simp [andThen, hr, hf]

theorem andThen_ok {r : Res} {f : Hub → Res} {h1 h' : Hub} {e1 e2 : List Effect}
    (hr : r = .ok (h1, e1)) (hf : f h1 = .ok (h', e2)) : andThen r f = .ok (h', e1 ++ e2) :=
  andThen_eq_ok.mpr ⟨h1, e1, e2, hr, hf, rfl⟩

theorem visit_closed {h : Hub} {m : DataSent} {c : ClientId} (hc : (h.send c).closed = true) :
    h.visit m c = .error .sendOnClosed := by
  simp [Hub.visit, hc]

theorem visit_open {h : Hub} (m : DataSent) {c : ClientId} (hc : (h.send c).closed = false) :
    ∃ h', h.visit m c = .ok (h', visitEffects h m c) ∧
      h'.clients = (if (h.send c).hasRoom then h.clients else h.clients.erase c) ∧
      ∀ x, h'.send x = if x = c then (h.send c).offered m else h.send x := by
  by_cases hr : (h.send c).hasRoom = true
  · refine ⟨h.setChan c { buf := (h.send c).buf ++ [m], closed := false }, ?_, ?_, ?_⟩
    · simp [Hub.visit, hc, hr, visitEffects]
    · simp [Hub.setChan, hr]
    · intro x; simp [Hub.setChan, Chan.offered, hr]
  · simp only [Bool.not_eq_true] at hr
    refine ⟨{ (h.setChan c { buf := (h.send c).buf, closed := true }) with
        clients := h.clients.erase c, keysNodup := h.keysNodup.erase c }, ?_, ?_, ?_⟩
    · simp [Hub.visit, hc, hr, visitEffects, Hub.closeChan, Hub.deleteClient, andThen, Hub.setChan]
    · simp [hr]
    · intro x; simp [Hub.setChan, Chan.offered, hr]

theorem loop_spec (m : DataSent) (ks : List ClientId) :
    ∀ (h : Hub), ks.Nodup → (∀ c ∈ ks, (h.send c).closed = false) →
    ∃ h' effs, h.broadcastLoop m ks = .ok (h', effs) ∧
      h'.clients = h.clients.filter (fun c => !(decide (c ∈ ks) && !(h.send c).hasRoom)) ∧
      (∀ x, h'.send x = if x ∈ ks then (h.send x).offered m else h.send x) ∧
      effs = ks.flatMap (visitEffects h m) := by
  induction ks with
  | nil =>
    intro h _ _
    exact ⟨h, [], rfl, by simp, by simp, by simp⟩
  | cons c rest ih =>
    intro h hnd hopen
    have hc : c ∉ rest := (List.nodup_cons.mp hnd).1
    obtain ⟨h1, hv, hcl1, hs1⟩ := visit_open m (hopen c (List.mem_cons_self _ _))
    have hsame : ∀ x ∈ rest, h1.send x = h.send x := by
      intro x hx
      have : x ≠ c := fun e => hc (e ▸ hx)
      simp [hs1, this]
    obtain ⟨h', e2, hl, hcl, hs, he⟩ := ih h1 (List.nodup_cons.mp hnd).2 (by
      intro x hx
      rw [hsame x hx]
      exact hopen x (List.mem_cons_of_mem _ hx))
    refine ⟨h', visitEffects h m c ++ e2, ?_, ?_, ?_, ?_⟩
    · exact andThen_ok hv hl
    · rw [hcl, hcl1]
      by_cases hr : (h.send c).hasRoom = true
      · simp only [hr, if_true]
        apply List.filter_congr
        intro x _
        by_cases hxc : x = c
        · subst hxc; simp [hc, hr]
        · by_cases hxr : x ∈ rest
          · simp [hxc, hxr, hsame x hxr]
          · simp [hxc, hxr]
      · simp only [Bool.not_eq_true] at hr
        simp only [hr, Bool.false_eq_true, if_false]
        rw [h.keysNodup.erase_eq_filter, List.filter_filter]
        apply List.filter_congr
        intro x _
        by_cases hxc : x = c
        · subst hxc; simp [hc, hr]
        · by_cases hxr : x ∈ rest
          · simp [hxc, hxr, hsame x hxr]
          · simp [hxc, hxr]
    · intro x
      rw [hs x]
      by_cases hxc : x = c
      · subst hxc; simp [hc, hs1]
      · by_cases hxr : x ∈ rest
        · simp [hxc, hxr, hsame x hxr]
        · simp [hxc, hxr, hs1]
    · rw [he, List.flatMap_cons]
      congr 1
      apply List.flatMap_congr
      intro x hx
      simp [visitEffects, hsame x hx]

theorem loop_ok_open (m : DataSent) (ks : List ClientId) :
    ∀ (h h' : Hub) (effs : List Effect), ks.Nodup → h.broadcastLoop m ks = .ok (h', effs) →
      ∀ c ∈ ks, (h.send c).closed = false := by
  induction ks with
  | nil => intro _ _ _ _ _ c hc; cases hc
  | cons c rest ih =>
    intro h h' effs hnd hl x hx
    have hc : c ∉ rest := (List.nodup_cons.mp hnd).1
    obtain ⟨h1, e1, e2, hv, hl2, _⟩ := andThen_eq_ok.mp hl
    have hopen : (h.send c).closed = false := by
      cases hcl : (h.send c).closed with
      | false => rfl
      | true => rw [visit_closed hcl] at hv; cases hv
    rcases List.mem_cons.mp hx with rfl | hxr
    · exact hopen
    · obtain ⟨h1', hv', _, hs1⟩ := visit_open m hopen
      rw [hv] at hv'
      injection hv' with hv'
      injection hv' with hh _
      subst hh
      have := ih h1 h' e2 (List.nodup_cons.mp hnd).2 hl2 x hxr
      have hne : x ≠ c := fun e => hc (e ▸ hxr)
      simpa [hs1, hne] using this

theorem step_broadcast_ok {h : Hub} (m : DataSent) (hopen : h.LiveOpen) :
    ∃ h', h.step (.broadcast m) = .ok (h', h.clients.flatMap (visitEffects h m)) ∧
      h'.clients = h.clients.filter (fun c => (h.send c).hasRoom) ∧
      ∀ x, h'.send x = if x ∈ h.clients then (h.send x).offered m else h.send x := by
  obtain ⟨h', effs, hl, hcl, hs, he⟩ := loop_spec m h.clients h h.keysNodup hopen
  subst he
  refine ⟨h', hl, ?_, hs⟩
  rw [hcl]
  apply List.filter_congr
  intro x hx
  simp [hx]

theorem step_broadcast_inv {h h' : Hub} {m : DataSent} {effs : List Effect}
    (hstep : h.step (.broadcast m) = .ok (h', effs)) :
    h.LiveOpen ∧ effs = h.clients.flatMap (visitEffects h m) ∧
      h'.clients = h.clients.filter (fun c => (h.send c).hasRoom) ∧
      ∀ x, h'.send x = if x ∈ h.clients then (h.send x).offered m else h.send x := by
  have hopen : h.LiveOpen := loop_ok_open m h.clients h h' effs h.keysNodup hstep
  obtain ⟨h2, hl, hcl, hs⟩ := step_broadcast_ok m hopen
  rw [hstep] at hl
  injection hl with hl
  injection hl with hh he
  subst hh
  exact ⟨hopen, he, hcl, hs⟩

theorem step_disconnect_absent {h : Hub} {s : ClientId} (hs : s ∉ h.clients) :
    h.step (.disconnect s) = .ok (h, []) := by
  simp [Hub.step, hs]

theorem step_disconnect_closed {h : Hub} {s : ClientId} (hs : s ∈ h.clients)
    (hc : (h.send s).closed = true) : h.step (.disconnect s) = .error .closeOfClosed := by
  simp [Hub.step, hs, Hub.deleteClient, Hub.closeChan, andThen, hc]

theorem step_disconnect_live {h : Hub} {s : ClientId} (hs : s ∈ h.clients)
    (hc : (h.send s).closed = false) :
    ∃ h', h.step (.disconnect s) = .ok (h', [.deleted s, .closed s]) ∧
      h'.clients = h.clients.erase s ∧
      ∀ x, h'.send x = if x = s then { buf := (h.send s).buf, closed := true } else h.send x := by
  refine ⟨{ (h.setChan s { buf := (h.send s).buf, closed := true }) with
      clients := h.clients.erase s, keysNodup := h.keysNodup.erase s }, ?_, rfl, ?_⟩
  · simp [Hub.step, hs, Hub.deleteClient, Hub.closeChan, andThen, hc, Hub.setChan]
  · intro x; simp [Hub.setChan]

theorem step_disconnect_inv {h h' : Hub} {s : ClientId} {effs : List Effect}
    (hstep : h.step (.disconnect s) = .ok (h', effs)) :
    (s ∉ h.clients ∧ h' = h ∧ effs = []) ∨
    (s ∈ h.clients ∧ (h.send s).closed = false ∧ effs = [.deleted s, .closed s] ∧
      h'.clients = h.clients.erase s ∧
      ∀ x, h'.send x = if x = s then { buf := (h.send s).buf, closed := true } else h.send x) := by
  by_cases hs : s ∈ h.clients
  · right
    cases hc : (h.send s).closed with
    | true => rw [step_disconnect_closed hs hc] at hstep; cases hstep
    | false =>
      obtain ⟨h2, hl, hcl, hsd⟩ := step_disconnect_live hs hc
      rw [hstep] at hl
      injection hl with hl
      injection hl with hh he
      subst hh
      exact ⟨hs, rfl, he, hcl, hsd⟩
  · left
    rw [step_disconnect_absent hs] at hstep
    injection hstep with hstep
    injection hstep with hh he
    exact ⟨hs, hh.symm, he.symm⟩

theorem recv_inv {h h' : Hub} {s : ClientId} {effs : List Effect}
    (hstep : h.recv s = .ok (h', effs)) :
    h'.clients = h.clients ∧ (∀ x, x ≠ s → h'.send x = h.send x) ∧
      (h'.send s).closed = (h.send s).closed ∧
      (∀ x, x ≠ s → delivered x effs = []) ∧
      delivered s effs ++ (h'.send s).buf = (h.send s).buf ∧
      (∀ x, effs.count (.closed x) = 0) ∧ (∀ x, effs.count (.deleted x) = 0) ∧
      (∀ x m, Effect.sent x m ∉ effs) := by
  unfold Hub.recv at hstep
  split at hstep
  · rename_i m rest hb
    injection hstep with hstep
    injection hstep with hh he
    subst hh he
    refine ⟨rfl, ?_, ?_, ?_, ?_, ?_, ?_, ?_⟩
    · intro x hx; simp [Hub.setChan, hx]
    · simp [Hub.setChan]
    · intro x hx; simp [delivered, Ne.symm hx]
    · simp [delivered, Hub.setChan, hb]
    · intro x; simp
    · intro x; simp
    · intro x m'; simp
  · rename_i hb
    split at hstep <;>
    · injection hstep with hstep
      injection hstep with hh he
      subst hh he
      refine ⟨rfl, ?_, rfl, ?_, ?_, ?_, ?_, ?_⟩
      · intro x _; rfl
      · intro x _; simp [delivered]
      · simp [delivered, hb]
      · intro x; simp
      · intro x; simp
      · intro x m'; simp

theorem reorder_inv {h h' : Hub} {ks : List ClientId} {effs : List Effect}
    (hstep : h.reorder ks = .ok (h', effs)) :
    effs = [] ∧ h'.send = h.send ∧ ∀ x, x ∈ h'.clients ↔ x ∈ h.clients := by
  unfold Hub.reorder at hstep
  split at hstep
  · rename_i hp
    injection hstep with hstep
    injection hstep with hh he
    subst hh he
    exact ⟨rfl, rfl, fun x => hp.mem_iff⟩
  · injection hstep with hstep
    injection hstep with hh he
    subst hh he
    exact ⟨rfl, rfl, fun x => Iff.rfl⟩

theorem reorder_total (h : Hub) (ks : List ClientId) :
    ∃ h', h.reorder ks = .ok (h', []) := by
  unfold Hub.reorder
  split <;> exact ⟨_, rfl⟩

theorem recv_total (h : Hub) (s : ClientId) : ∃ h' effs, h.recv s = .ok (h', effs) := by
  unfold Hub.recv
  split
  · exact ⟨_, _, rfl⟩
  · split <;> exact ⟨_, _, rfl⟩

theorem count_closed_bcast (h : Hub) (m : DataSent) (c : ClientId) (ks : List ClientId)
    (hnd : ks.Nodup) :
    (ks.flatMap (visitEffects h m)).count (.closed c)
      = if c ∈ ks ∧ (h.send c).hasRoom = false then 1 else 0 := by
  induction ks with
  | nil => simp
  | cons k rest ih =>
    have hk : k ∉ rest := (List.nodup_cons.mp hnd).1
    rw [List.flatMap_cons, List.count_append, ih (List.nodup_cons.mp hnd).2]
    by_cases hck : c = k
    · subst hck
      cases hr : (h.send c).hasRoom <;> simp [visitEffects, hr, hk]
    · have hkc : ¬ k = c := fun e => hck e.symm
      cases hr : (h.send k).hasRoom <;> simp [visitEffects, hr, hck, hkc]

theorem count_deleted_bcast (h : Hub) (m : DataSent) (c : ClientId) (ks : List ClientId) :
    (ks.flatMap (visitEffects h m)).count (.deleted c)
      = (ks.flatMap (visitEffects h m)).count (.closed c) := by
  induction ks with
  | nil => simp
  | cons k rest ih =>
    rw [List.flatMap_cons, List.count_append, List.count_append, ih]
    cases hr : (h.send k).hasRoom <;> simp [visitEffects, hr, List.count_cons]

theorem delivered_append (s : ClientId) (e1 e2 : List Effect) :
    delivered s (e1 ++ e2) = delivered s e1 ++ delivered s e2 := by
  induction e1 with
  | nil => rfl
  | cons e rest ih =>
    cases e <;> simp [delivered, ih]
    split <;> simp

theorem delivered_bcast (h : Hub) (m : DataSent) (s : ClientId) (ks : List ClientId) :
    delivered s (ks.flatMap (visitEffects h m)) = [] := by
  induction ks with
  | nil => rfl
  | cons k rest ih =>
    rw [List.flatMap_cons, delivered_append, ih]
    cases hr : (h.send k).hasRoom <;> simp [visitEffects, hr, delivered]

theorem sent_mem_bcast {h : Hub} {m m' : DataSent} {c : ClientId} {ks : List ClientId}
    (hmem : Effect.sent c m' ∈ ks.flatMap (visitEffects h m)) :
    c ∈ ks ∧ (h.send c).hasRoom = true ∧ m' = m := by
  rw [List.mem_flatMap] at hmem
  obtain ⟨k, hk, hin⟩ := hmem
  cases hr : (h.send k).hasRoom
  · simp [visitEffects, hr] at hin
  · simp [visitEffects, hr] at hin
    obtain ⟨rfl, rfl⟩ := hin
    exact ⟨hk, hr, rfl⟩

theorem joins_append (l1 l2 : List Action) : joins (l1 ++ l2) = joins l1 ++ joins l2 := by
  induction l1 with
  | nil => rfl
  | cons a rest ih =>
    rcases a with (c | c | m) | c | ks <;> simp [joins, ih]

theorem inv_empty {acts : List Action} (hnd : (joins acts).Nodup) : Hub.empty.Inv acts := by
  refine ⟨?_, ?_, hnd⟩
  · intro c hc; cases hc
  · intro c _
    exact ⟨by simp [Hub.empty], rfl⟩

theorem act_inv {h : Hub} {a : Action} {rest : List Action} (hinv : h.Inv (a :: rest)) :
    ∃ h' effs, h.act a = .ok (h', effs) ∧ h'.Inv rest ∧
      (∀ c m, Effect.sent c m ∈ effs →
        c ∈ h.clients ∧ (h.send c).closed = false ∧ c ∈ h'.clients) ∧
      (∀ c, effs.count (.closed c) + (h.send c).closed.toNat = (h'.send c).closed.toNat) ∧
      (∀ c, effs.count (.deleted c) = effs.count (.closed c)) := by
  obtain ⟨hlive, htodo, hnd⟩ := hinv
  rcases a with (c | s | m) | s | ks
  · -- join
    have hnd' : c ∉ joins rest ∧ (joins rest).Nodup := by simpa [joins] using hnd
    have hc := htodo c (by simp [joins])
    refine ⟨h.insertClient c, [], rfl, ⟨?_, ?_, hnd'.2⟩, ?_, ?_, ?_⟩
    · intro x hx
      have hx' : x = c ∨ x ∈ h.clients := by simpa [Hub.insertClient] using hx
      rcases hx' with rfl | hx'
      · exact hc.2
      · exact hlive x hx'
    · intro x hx
      have hxc : x ≠ c := fun e => hnd'.1 (e ▸ hx)
      have := htodo x (by simp [joins, hx])
      refine ⟨?_, this.2⟩
      simp [Hub.insertClient, hxc, this.1]
    · intro x m hm; cases hm
    · intro x; simp [Hub.insertClient]
    · intro x; simp
  · -- disconnect
    have htodo' : ∀ x ∈ joins rest, x ∉ h.clients ∧ (h.send x).closed = false := by
      intro x hx; exact htodo x (by simpa [joins] using hx)
    have hnd' : (joins rest).Nodup := by simpa [joins] using hnd
    by_cases hs : s ∈ h.clients
    · obtain ⟨h', hstep, hcl, hsd⟩ := step_disconnect_live hs (hlive s hs)
      refine ⟨h', _, hstep, ⟨?_, ?_, hnd'⟩, ?_, ?_, ?_⟩
      · intro x hx
        rw [hcl] at hx
        have hx' := (h.keysNodup.mem_erase_iff).mp hx
        rw [hsd x]
        simp [hx'.1, hlive x hx'.2]
      · intro x hx
        have := htodo' x hx
        have hxs : x ≠ s := fun e => this.1 (e ▸ hs)
        refine ⟨?_, ?_⟩
        · rw [hcl]; exact fun hmem => this.1 (List.mem_of_mem_erase hmem)
        · rw [hsd x]; simp [hxs, this.2]
      · intro x m hm; simp at hm
      · intro x
        rw [hsd x]
        by_cases hxs : x = s
        · subst hxs; simp [hlive x hs]
        · have : ¬ s = x := fun e => hxs e.symm
          simp [hxs, this]
      · intro x; simp [List.count_cons]
    · refine ⟨h, [], step_disconnect_absent hs, ⟨hlive, htodo', hnd'⟩, ?_, ?_, ?_⟩
      · intro x m hm; cases hm
      · intro x; simp
      · intro x; simp
  · -- broadcast
    have htodo' : ∀ x ∈ joins rest, x ∉ h.clients ∧ (h.send x).closed = false := by
      intro x hx; exact htodo x (by simpa [joins] using hx)
    have hnd' : (joins rest).Nodup := by simpa [joins] using hnd
    obtain ⟨h', hstep, hcl, hsd⟩ := step_broadcast_ok m hlive
    refine ⟨h', _, hstep, ⟨?_, ?_, hnd'⟩, ?_, ?_, ?_⟩
    · intro x hx
      rw [hcl] at hx
      have hx' := List.mem_filter.mp hx
      rw [hsd x]
      simp [hx'.1, Chan.offered, hx'.2]
    · intro x hx
      have := htodo' x hx
      refine ⟨?_, ?_⟩
      · rw [hcl]; exact fun hmem => this.1 (List.mem_filter.mp hmem).1
      · rw [hsd x]; simp [this.1, this.2]
    · intro x m' hm
      have := sent_mem_bcast hm
      refine ⟨this.1, hlive x this.1, ?_⟩
      rw [hcl]
      exact List.mem_filter.mpr ⟨this.1, this.2.1⟩
    · intro x
      rw [count_closed_bcast h m x h.clients h.keysNodup, hsd x]
      by_cases hx : x ∈ h.clients
      · cases hr : (h.send x).hasRoom <;> simp [hx, hr, Chan.offered, hlive x hx]
      · simp [hx]
    · intro x
      exact count_deleted_bcast h m x h.clients
  · -- a receive of an outbound loop
    have htodo' : ∀ x ∈ joins rest, x ∉ h.clients ∧ (h.send x).closed = false := by
      intro x hx; exact htodo x (by simpa [joins] using hx)
    have hnd' : (joins rest).Nodup := by simpa [joins] using hnd
    obtain ⟨h', effs, hstep⟩ := recv_total h s
    obtain ⟨hcl, hoth, hsame, _, _, hc0, hd0, hsent⟩ := recv_inv hstep
    have hclosed : ∀ x, (h'.send x).closed = (h.send x).closed := by
      intro x
      by_cases hxs : x = s
      · subst hxs; exact hsame
      · rw [hoth x hxs]
    refine ⟨h', effs, hstep, ⟨?_, ?_, hnd'⟩, ?_, ?_, ?_⟩
    · intro x hx
      rw [hcl] at hx
      rw [hclosed x]; exact hlive x hx
    · intro x hx
      rw [hcl, hclosed x]; exact htodo' x hx
    · intro x m hm; exact absurd hm (hsent x m)
    · intro x; rw [hc0 x, hclosed x]; simp
    · intro x; rw [hc0 x, hd0 x]
  · -- a change of the iteration order
    have htodo' : ∀ x ∈ joins rest, x ∉ h.clients ∧ (h.send x).closed = false := by
      intro x hx; exact htodo x (by simpa [joins] using hx)
    have hnd' : (joins rest).Nodup := by simpa [joins] using hnd
    obtain ⟨h', hstep⟩ := reorder_total h ks
    obtain ⟨_, hsd, hmem⟩ := reorder_inv hstep
    refine ⟨h', [], hstep, ⟨?_, ?_, hnd'⟩, ?_, ?_, ?_⟩
    · intro x hx
      rw [hsd]; exact hlive x ((hmem x).mp hx)
    · intro x hx
      rw [hsd, hmem x]; exact htodo' x hx
    · intro x m hm; cases hm
    · intro x; rw [hsd]; simp
    · intro x; simp

theorem exec_inv (acts rest : List Action) :
    ∀ h : Hub, h.Inv (acts ++ rest) →
      ∃ h' tr, h.exec acts = .ok (h', tr) ∧ h'.Inv rest ∧
        (∀ c, tr.count (.closed c) + (h.send c).closed.toNat = (h'.send c).closed.toNat) ∧
        (∀ c, tr.count (.deleted c) = tr.count (.closed c)) := by
  induction acts with
  | nil =>
    intro h hinv
    exact ⟨h, [], rfl, hinv, by simp, by simp⟩
  | cons a more ih =>
    intro h hinv
    obtain ⟨h1, e1, hact, hinv1, _, hc1, hd1⟩ := act_inv hinv
    obtain ⟨h', e2, hex, hinv', hc2, hd2⟩ := ih h1 hinv1
    refine ⟨h', e1 ++ e2, andThen_ok hact hex, hinv', ?_, ?_⟩
    · intro c
      rw [List.count_append, ← hc2 c, ← hc1 c]
      omega
    · intro c
      rw [List.count_append, List.count_append, hd1 c, hd2 c]

/-- C3 (P1, no duplicate removal). In every execution from the empty hub in
which no client is joined twice, whatever the leave and broadcast events, the
receives of the outbound loops and the iteration orders of the map, the hub
loop never panics (so it never closes a closed queue), and for every session
it closes the outbound queue at most once and deletes the session from the
live set at most once. -/
theorem no_duplicate_removal (acts : List Action) (hjoin : (joins acts).Nodup) :
    ∃ h tr, Hub.empty.exec acts = .ok (h, tr) ∧
      ∀ s, tr.count (.closed s) ≤ 1 ∧ tr.count (.deleted s) ≤ 1 := by
  have hinv : Hub.empty.Inv (acts ++ []) := by
    rw [List.append_nil]; exact inv_empty hjoin
  obtain ⟨h, tr, hex, _, hc, hd⟩ := exec_inv acts [] Hub.empty hinv
  refine ⟨h, tr, hex, fun s => ?_⟩
  have h1 := hc s
  have h2 : (h.send s).closed.toNat ≤ 1 := Bool.toNat_le _
  rw [hd s]
  omega

/-- C4 (live-set invariant). In every execution from the empty hub in which no
client is joined twice, the hub loop never panics (so it never sends on a
closed queue), in the state before and after each action every session of the
live set has an open outbound queue, and every envelope the action enqueues is
enqueued on the open queue of a session that is in the live set before and
after the action. -/
theorem live_set_invariant (acts : List Action) (a : Action)
    (hjoin : (joins (acts ++ [a])).Nodup) :
    ∃ h tr h' effs, Hub.empty.exec acts = .ok (h, tr) ∧ h.act a = .ok (h', effs) ∧
      h.LiveOpen ∧ h'.LiveOpen ∧
      ∀ c m, Effect.sent c m ∈ effs →
        c ∈ h.clients ∧ (h.send c).closed = false ∧ c ∈ h'.clients := by
  obtain ⟨h, tr, hex, hinv, _, _⟩ := exec_inv acts [a] Hub.empty (inv_empty hjoin)
  obtain ⟨h', effs, hact, hinv', hsent, _, _⟩ := act_inv hinv
  exact ⟨h, tr, h', effs, hex, hact, hinv.1, hinv'.1, hsent⟩

/-! ## What one session sees of an execution -/

theorem act_bufs {h h1 : Hub} {a : Action} {e1 : List Effect}
    (hnb : ∀ m, a ≠ .hub (.broadcast m)) (hact : h.act a = .ok (h1, e1)) (s : ClientId) :
    delivered s e1 ++ (h1.send s).buf = (h.send s).buf := by
  rcases a with (c | c | m) | c | ks
  · injection hact with hact
    injection hact with hh he
    subst hh he
    simp [delivered, Hub.insertClient]
  · rcases step_disconnect_inv hact with ⟨_, rfl, rfl⟩ | ⟨_, _, rfl, _, hsd⟩
    · simp [delivered]
    · rw [hsd s]
      by_cases hsc : s = c
      · subst hsc; simp [delivered]
      · simp [delivered, hsc]
  · exact absurd rfl (hnb m)
  · obtain ⟨_, hoth, _, hdel, hbuf, _⟩ := recv_inv hact
    by_cases hsc : s = c
    · subst hsc; exact hbuf
    · rw [hdel s hsc, hoth s hsc]; rfl
  · obtain ⟨rfl, hsd, _⟩ := reorder_inv hact
    rw [hsd]; rfl

theorem act_bcast_view {h h1 : Hub} {m : DataSent} {e1 : List Effect}
    (hact : h.act (.hub (.broadcast m)) = .ok (h1, e1)) (s : ClientId) :
    delivered s e1 = [] ∧
      ((s ∈ h.clients ∧ s ∈ h1.clients ∧ (h1.send s).buf = (h.send s).buf ++ [m]) ∨
       (s ∉ h1.clients ∧ (h1.send s).buf = (h.send s).buf)) := by
  obtain ⟨_, he, hcl, hsd⟩ := step_broadcast_inv hact
  subst he
  refine ⟨delivered_bcast h m s h.clients, ?_⟩
  by_cases hs : s ∈ h.clients
  · cases hr : (h.send s).hasRoom
    · right
      refine ⟨?_, ?_⟩
      · rw [hcl]; intro hmem; simp [hr] at hmem
      · rw [hsd s]; simp [hs, Chan.offered, hr]
    · left
      refine ⟨hs, ?_, ?_⟩
      · rw [hcl]; exact List.mem_filter.mpr ⟨hs, hr⟩
      · rw [hsd s]; simp [hs, Chan.offered, hr]
  · right
    refine ⟨?_, ?_⟩
    · rw [hcl]; exact fun hmem => hs (List.mem_filter.mp hmem).1
    · rw [hsd s]; simp [hs]

theorem act_mem {h h1 : Hub} {a : Action} {e1 : List Effect}
    (hact : h.act a = .ok (h1, e1)) {s : ClientId} (hs : s ∈ h1.clients) :
    s ∈ h.clients ∨ a = .hub (.join s) := by
  rcases a with (c | c | m) | c | ks
  · injection hact with hact
    injection hact with hh he
    subst hh
    have : s = c ∨ s ∈ h.clients := by simpa [Hub.insertClient] using hs
    rcases this with rfl | hmem
    · right; rfl
    · left; exact hmem
  · left
    rcases step_disconnect_inv hact with ⟨_, rfl, _⟩ | ⟨_, _, _, hcl, _⟩
    · exact hs
    · rw [hcl] at hs; exact List.mem_of_mem_erase hs
  · left
    obtain ⟨_, _, hcl, _⟩ := step_broadcast_inv hact
    rw [hcl] at hs; exact (List.mem_filter.mp hs).1
  · left
    obtain ⟨hcl, _⟩ := recv_inv hact
    rw [hcl] at hs; exact hs
  · left
    obtain ⟨_, _, hmem⟩ := reorder_inv hact
    exact (hmem s).mp hs

theorem act_join_mem {h h1 : Hub} {s : ClientId} {e1 : List Effect}
    (hact : h.act (.hub (.join s)) = .ok (h1, e1)) : s ∈ h1.clients := by
  injection hact with hact
  injection hact with hh he
  subst hh
  simp [Hub.insertClient]

theorem exec_absent (s : ClientId) (acts : List Action) :
    ∀ (h h' : Hub) (tr : List Effect), s ∉ h.clients → s ∉ joins acts →
      h.exec acts = .ok (h', tr) →
      s ∉ h'.clients ∧ delivered s tr ++ (h'.send s).buf = (h.send s).buf := by
  induction acts with
  | nil =>
    intro h h' tr hs _ hex
    injection hex with hex
    injection hex with hh he
    subst hh he
    exact ⟨hs, rfl⟩
  | cons a rest ih =>
    intro h h' tr hs hj hex
    obtain ⟨h1, e1, e2, hact, hex2, rfl⟩ := andThen_eq_ok.mp hex
    have hnj : a ≠ .hub (.join s) := by
      rintro rfl; simp [joins] at hj
    have hj' : s ∉ joins rest := by
      intro hmem
      apply hj
      rcases a with (c | c | m) | c | ks <;> simp [joins, hmem]
    have hs1 : s ∉ h1.clients := by
      intro hmem
      rcases act_mem hact hmem with h0 | h0
      · exact hs h0
      · exact hnj h0
    obtain ⟨hfin, hbuf⟩ := ih h1 h' e2 hs1 hj' hex2
    refine ⟨hfin, ?_⟩
    rw [delivered_append, List.append_assoc, hbuf]
    by_cases hb : ∃ m, a = .hub (.broadcast m)
    · obtain ⟨m, rfl⟩ := hb
      obtain ⟨hd, hcase⟩ := act_bcast_view hact s
      rcases hcase with ⟨h0, _, _⟩ | ⟨_, h0⟩
      · exact absurd h0 hs
      · rw [hd, h0]; rfl
    · exact act_bufs (fun m e => hb ⟨m, e⟩) hact s

theorem bcasts_cons_of_not_bcast {a : Action} (rest : List Action)
    (hnb : ∀ m, a ≠ .hub (.broadcast m)) : bcasts (a :: rest) = bcasts rest := by
  rcases a with (c | c | m) | c | ks
  · rfl
  · rfl
  · exact absurd rfl (hnb m)
  · rfl
  · rfl

theorem exec_live (s : ClientId) (acts : List Action) :
    ∀ (h h' : Hub) (tr : List Effect), s ∈ h.clients → s ∉ joins acts →
      h.exec acts = .ok (h', tr) →
      (delivered s tr ++ (h'.send s).buf) <+: ((h.send s).buf ++ bcasts acts) ∧
      (s ∈ h'.clients → delivered s tr ++ (h'.send s).buf = (h.send s).buf ++ bcasts acts) := by
  induction acts with
  | nil =>
    intro h h' tr _ _ hex
    injection hex with hex
    injection hex with hh he
    subst hh he
    simp [delivered, bcasts]
  | cons a rest ih =>
    intro h h' tr hs hj hex
    obtain ⟨h1, e1, e2, hact, hex2, rfl⟩ := andThen_eq_ok.mp hex
    have hj' : s ∉ joins rest := by
      intro hmem
      apply hj
      rcases a with (c | c | m) | c | ks <;> simp [joins, hmem]
    rw [delivered_append, List.append_assoc]
    by_cases hb : ∃ m, a = .hub (.broadcast m)
    · obtain ⟨m, rfl⟩ := hb
      obtain ⟨hd, hcase⟩ := act_bcast_view hact s
      rw [hd, List.nil_append]
      have hbc : bcasts (.hub (.broadcast m) :: rest) = m :: bcasts rest := rfl
      rw [hbc]
      rcases hcase with ⟨_, hs1, hbuf1⟩ | ⟨hs1, hbuf1⟩
      · have := ih h1 h' e2 hs1 hj' hex2
        rw [hbuf1, List.append_assoc] at this
        exact this
      · obtain ⟨hfin, hbuf⟩ := exec_absent s rest h1 h' e2 hs1 hj' hex2
        rw [hbuf, hbuf1]
        exact ⟨List.prefix_append _ _, fun hmem => absurd hmem hfin⟩
    · have hnb : ∀ m, a ≠ .hub (.broadcast m) := fun m e => hb ⟨m, e⟩
      have hbuf1 := act_bufs hnb hact s
      rw [bcasts_cons_of_not_bcast rest hnb, ← hbuf1, List.append_assoc]
      by_cases hs1 : s ∈ h1.clients
      · have := ih h1 h' e2 hs1 hj' hex2
        refine ⟨(List.prefix_append_right_inj _).mpr this.1, fun hmem => ?_⟩
        rw [this.2 hmem]
      · obtain ⟨hfin, hbuf⟩ := exec_absent s rest h1 h' e2 hs1 hj' hex2
        rw [hbuf]
        refine ⟨(List.prefix_append_right_inj _).mpr (List.prefix_append _ _),
          fun hmem => absurd hmem hfin⟩

theorem exec_before_join (s : ClientId) (acts : List Action) :
    ∀ (h h' : Hub) (tr : List Effect), s ∉ h.clients → (h.send s).buf = [] →
      (joins acts).count s ≤ 1 → h.exec acts = .ok (h', tr) →
      (delivered s tr ++ (h'.send s).buf) <+: bcastsAfterJoin s acts ∧
      (s ∈ h'.clients → delivered s tr ++ (h'.send s).buf = bcastsAfterJoin s acts) := by
  induction acts with
  | nil =>
    intro h h' tr hs hbuf _ hex
    injection hex with hex
    injection hex with hh he
    subst hh he
    exact ⟨by simp [delivered, hbuf, bcastsAfterJoin], fun hmem => absurd hmem hs⟩
  | cons a rest ih =>
    intro h h' tr hs hbuf hj hex
    obtain ⟨h1, e1, e2, hact, hex2, rfl⟩ := andThen_eq_ok.mp hex
    rw [delivered_append, List.append_assoc]
    by_cases hjs : a = .hub (.join s)
    · subst hjs
      have hj' : s ∉ joins rest := by
        intro hmem
        have hpos : 0 < (joins rest).count s := List.count_pos_iff.mpr hmem
        simp [joins] at hj
        omega
      have hs1 : s ∈ h1.clients := act_join_mem hact
      have hbuf1 := act_bufs (fun m e => by cases e) hact s
      rw [hbuf] at hbuf1
      have hd : delivered s e1 = [] := (List.append_eq_nil.mp hbuf1).1
      have hb1 : (h1.send s).buf = [] := (List.append_eq_nil.mp hbuf1).2
      have := exec_live s rest h1 h' e2 hs1 hj' hex2
      rw [hb1, List.nil_append] at this
      have hdef : bcastsAfterJoin s (.hub (.join s) :: rest) = bcasts rest := by
        simp [bcastsAfterJoin]
      rw [hd, List.nil_append, hdef]
      exact this
    · have hs1 : s ∉ h1.clients := by
        intro hmem
        rcases act_mem hact hmem with h0 | h0
        · exact hs h0
        · exact hjs h0
      have hj' : (joins rest).count s ≤ 1 := by
        rcases a with (c | c | m) | c | ks
        · have : (joins rest).count s ≤ (joins (.hub (.join c) :: rest)).count s := by
            simp [joins, List.count_cons]
          omega
        · simpa [joins] using hj
        · simpa [joins] using hj
        · simpa [joins] using hj
        · simpa [joins] using hj
      have hdef : bcastsAfterJoin s (a :: rest) = bcastsAfterJoin s rest := by
        rcases a with (c | c | m) | c | ks
        · have hcs : c ≠ s := fun e => hjs (by rw [e])
          simp [bcastsAfterJoin, hcs]
        · rfl
        · rfl
        · rfl
        · rfl
      have hpair : delivered s e1 = [] ∧ (h1.send s).buf = [] := by
        by_cases hb : ∃ m, a = .hub (.broadcast m)
        · obtain ⟨m, rfl⟩ := hb
          obtain ⟨hd, hcase⟩ := act_bcast_view hact s
          rcases hcase with ⟨h0, _, _⟩ | ⟨_, h0⟩
          · exact absurd h0 hs
          · exact ⟨hd, by rw [h0, hbuf]⟩
        · have := act_bufs (fun m e => hb ⟨m, e⟩) hact s
          rw [hbuf] at this
          exact List.append_eq_nil.mp this
      rw [hpair.1, List.nil_append, hdef]
      exact ih h1 h' e2 hs1 hpair.2 hj' hex2

/-- C5 (per-session delivery order). In every execution from the empty hub
(hub events interleaved with receives of the outbound loops, under any
iteration order of the map) that the hub survives, for every session joined at
most once, the envelopes its outbound
loop has received followed by the envelopes still in its queue are, in order,
an initial segment of the envelopes of the broadcast events processed after
its join, and the whole of them while the session is in the live set. An
execution in which no client is joined twice is always survived. -/
theorem delivery_order (acts : List Action) (s : ClientId)
    (hjoin : (joins acts).count s ≤ 1) :
    (∀ h tr, Hub.empty.exec acts = .ok (h, tr) →
      (delivered s tr ++ (h.send s).buf) <+: bcastsAfterJoin s acts ∧
      (s ∈ h.clients → delivered s tr ++ (h.send s).buf = bcastsAfterJoin s acts)) ∧
    ((joins acts).Nodup → ∃ h tr, Hub.empty.exec acts = .ok (h, tr)) := by
  refine ⟨fun h tr hex => ?_, fun hnd => ?_⟩
  · exact exec_before_join s acts Hub.empty h tr (by simp [Hub.empty]) rfl hjoin hex
  · have hinv : Hub.empty.Inv (acts ++ []) := by
      rw [List.append_nil]; exact inv_empty hnd
    obtain ⟨h, tr, hex, _⟩ := exec_inv acts [] Hub.empty hinv
    exact ⟨h, tr, hex⟩

theorem forwarded_append (l1 l2 : List ReadOp) :
    forwarded (l1 ++ l2) = forwarded l1 ++ forwarded l2 := by
  induction l1 with
  | nil => rfl
  | cons o rest ih => cases o <;> simp [forwarded, ih]

theorem deadlines_append (l1 l2 : List ReadOp) :
    deadlines (l1 ++ l2) = deadlines l1 ++ deadlines l2 := by
  induction l1 with
  | nil => rfl
  | cons o rest ih => cases o <;> simp [deadlines, ih]

theorem readLoop_forwarded (unmarshal : Bytes → DataSent → DataSent × Bool)
    (evs : List ReadEvent) :
    forwarded (readLoop unmarshal evs).1
      = (framesRead evs).map (fun f => (unmarshal f newDataSent).1) := by
  induction evs with
  | nil => rfl
  | cons e rest ih =>
    cases e with
    | pong now => simp [readLoop, framesRead, forwarded, pongHandler, ih]
    | frame message =>
      simp only [readLoop, framesRead, forwarded_append, forwarded, ih, List.map_cons]
      split <;> simp [forwarded]
    | err u =>
      simp only [readLoop, framesRead, List.map_nil]
      split <;> simp [forwarded]

theorem readLoop_deadlines (unmarshal : Bytes → DataSent → DataSent × Bool)
    (evs : List ReadEvent) :
    deadlines (readLoop unmarshal evs).1 = (pongTimes evs).map (fun t => t + pongPeriod) := by
  induction evs with
  | nil => rfl
  | cons e rest ih =>
    cases e with
    | pong now => simp [readLoop, pongTimes, deadlines, pongHandler, ih]
    | frame message =>
      simp only [readLoop, pongTimes, deadlines_append, deadlines, ih]
      split <;> simp [deadlines]
    | err u =>
      simp only [readLoop, pongTimes, List.map_nil]
      split <;> simp [deadlines]

theorem readLoop_exit (unmarshal : Bytes → DataSent → DataSent × Bool) (evs : List ReadEvent) :
    (readLoop unmarshal evs).2 = true ↔ ∃ u, ReadEvent.err u ∈ evs := by
  induction evs with
  | nil => simp [readLoop]
  | cons e rest ih =>
    cases e with
    | pong now => simp [readLoop, ih]
    | frame message => simp [readLoop, ih]
    | err u => simp [readLoop]

theorem readLoop_quiet (unmarshal : Bytes → DataSent → DataSent × Bool) (evs : List ReadEvent) :
    ReadOp.disconnect ∉ (readLoop unmarshal evs).1 ∧ ReadOp.connClose ∉ (readLoop unmarshal evs).1 := by
  induction evs with
  | nil => simp [readLoop]
  | cons e rest ih =>
    cases e with
    | pong now => simp [readLoop, pongHandler, ih]
    | frame message =>
      simp only [readLoop]
      split <;> simp [ih]
    | err u =>
      simp only [readLoop]
      split <;> simp

/-- C7 (P5, malformed tolerance). Whatever the frames decode to, the inbound
loop returns exactly when a read returns an error, it sends the leave request
and closes the connection exactly when it returns, and the frames that decode
without error, read before the first read error, are forwarded to the hub's
broadcast channel decoded and in read order. -/
theorem malformed_tolerance (unmarshal : Bytes → DataSent → DataSent × Bool) (now : Int)
    (evs : List ReadEvent) :
    ((readContent unmarshal now evs).2 = true ↔ ∃ u, ReadEvent.err u ∈ evs) ∧
    (ReadOp.disconnect ∈ (readContent unmarshal now evs).1 ↔ ∃ u, ReadEvent.err u ∈ evs) ∧
    (ReadOp.connClose ∈ (readContent unmarshal now evs).1 ↔ ∃ u, ReadEvent.err u ∈ evs) ∧
    List.Sublist
      (((framesRead evs).filter (fun f => !(unmarshal f newDataSent).2)).map
        (fun f => (unmarshal f newDataSent).1))
      (forwarded (readContent unmarshal now evs).1) := by
  have hq := readLoop_quiet unmarshal evs
  have hx := readLoop_exit unmarshal evs
  refine ⟨hx, ?_, ?_, ?_⟩
  · rw [← hx]
    cases hr : (readLoop unmarshal evs).2 <;> simp [readContent, hr, hq.1]
  · rw [← hx]
    cases hr : (readLoop unmarshal evs).2 <;> simp [readContent, hr, hq.2]
  · have hf : forwarded (readContent unmarshal now evs).1
        = (framesRead evs).map (fun f => (unmarshal f newDataSent).1) := by
      simp only [readContent, forwarded_append, readLoop_forwarded]
      cases (readLoop unmarshal evs).2 <;> simp [forwarded]
    rw [hf]
    exact (List.filter_sublist _).map _

/-! ## The broadcast step and the leave step -/

theorem closed_mem_bcast {h : Hub} {m : DataSent} {c : ClientId} {ks : List ClientId} :
    Effect.closed c ∈ ks.flatMap (visitEffects h m) ↔ c ∈ ks ∧ (h.send c).hasRoom = false := by
  rw [List.mem_flatMap]
  constructor
  · rintro ⟨k, hk, hin⟩
    cases hr : (h.send k).hasRoom
    · simp [visitEffects, hr] at hin
      subst hin
      exact ⟨hk, hr⟩
    · simp [visitEffects, hr] at hin
  · rintro ⟨hk, hr⟩
    exact ⟨c, hk, by simp [visitEffects, hr]⟩

theorem deleted_mem_bcast {h : Hub} {m : DataSent} {c : ClientId} {ks : List ClientId} :
    Effect.deleted c ∈ ks.flatMap (visitEffects h m) ↔ c ∈ ks ∧ (h.send c).hasRoom = false := by
  rw [List.mem_flatMap]
  constructor
  · rintro ⟨k, hk, hin⟩
    cases hr : (h.send k).hasRoom
    · simp [visitEffects, hr] at hin
      subst hin
      exact ⟨hk, hr⟩
    · simp [visitEffects, hr] at hin
  · rintro ⟨hk, hr⟩
    exact ⟨c, hk, by simp [visitEffects, hr]⟩

theorem sent_mem_bcast_of_room {h : Hub} {m : DataSent} {c : ClientId} {ks : List ClientId}
    (hk : c ∈ ks) (hr : (h.send c).hasRoom = true) :
    Effect.sent c m ∈ ks.flatMap (visitEffects h m) := by
  rw [List.mem_flatMap]
  exact ⟨c, hk, by simp [visitEffects, hr]⟩

theorem length_filter_add_countP (l : List ClientId) (p : ClientId → Bool) :
    (l.filter p).length + l.countP (fun c => !(p c)) = l.length := by
  rw [← List.countP_eq_length_filter]
  have := List.length_eq_countP_add_countP p l
  have h2 : List.countP (fun a => decide ¬p a = true) l = List.countP (fun c => !(p c)) l := by
    congr 1; funext a; cases p a <;> simp
  omega

/-- C1 (broadcast step, slow-consumer eviction), for a hub state in which no
session of the live set has a closed outbound queue, as in every state the hub
reaches (`exec_inv`). The step does not panic
and serves every session of the live set, the sender like any other, in
whatever order the keys are visited: the new live set is the old one without
the sessions whose queue was full, so with N live sessions of which one has a
full queue N-1 remain; a live session whose queue had room has the envelope
appended to its queue and stays live; a live session whose queue was full has
its queue closed, is deleted from the live set and gets no envelope; a session
outside the live set is not touched. -/
theorem broadcast_step (h : Hub) (m : DataSent) (hopen : h.LiveOpen) :
    ∃ h' effs, h.step (.broadcast m) = .ok (h', effs) ∧
      h'.clients = h.clients.filter (fun c => (h.send c).hasRoom) ∧
      h'.clients.length + h.clients.countP (fun c => !(h.send c).hasRoom) = h.clients.length ∧
      (∀ c ∈ h.clients, (h.send c).hasRoom = true →
        h'.send c = { buf := (h.send c).buf ++ [m], closed := false } ∧ c ∈ h'.clients ∧
        Effect.sent c m ∈ effs ∧ Effect.closed c ∉ effs ∧ Effect.deleted c ∉ effs) ∧
      (∀ c ∈ h.clients, (h.send c).hasRoom = false →
        h'.send c = { buf := (h.send c).buf, closed := true } ∧ c ∉ h'.clients ∧
        Effect.closed c ∈ effs ∧ Effect.deleted c ∈ effs ∧ ∀ m', Effect.sent c m' ∉ effs) ∧
      (∀ c, c ∉ h.clients →
        h'.send c = h.send c ∧ c ∉ h'.clients ∧
        Effect.closed c ∉ effs ∧ Effect.deleted c ∉ effs ∧ ∀ m', Effect.sent c m' ∉ effs) := by
  obtain ⟨h', hstep, hcl, hsd⟩ := step_broadcast_ok m hopen
  refine ⟨h', _, hstep, hcl, ?_, ?_, ?_, ?_⟩
  · rw [hcl]; exact length_filter_add_countP _ _
  · intro c hc hr
    refine ⟨?_, ?_, sent_mem_bcast_of_room hc hr, ?_, ?_⟩
    · rw [hsd c]; simp [hc, Chan.offered, hr]
    · rw [hcl]; exact List.mem_filter.mpr ⟨hc, hr⟩
    · intro hmem; have := (closed_mem_bcast.mp hmem).2; simp [hr] at this
    · intro hmem; have := (deleted_mem_bcast.mp hmem).2; simp [hr] at this
  · intro c hc hr
    refine ⟨?_, ?_, closed_mem_bcast.mpr ⟨hc, hr⟩, deleted_mem_bcast.mpr ⟨hc, hr⟩, ?_⟩
    · rw [hsd c]; simp [hc, Chan.offered, hr]
    · rw [hcl]; intro hmem; have := (List.mem_filter.mp hmem).2; simp [hr] at this
    · intro m' hmem; have := (sent_mem_bcast hmem).2.1; simp [hr] at this
  · intro c hc
    refine ⟨?_, ?_, ?_, ?_, ?_⟩
    · rw [hsd c]; simp [hc]
    · rw [hcl]; exact fun hmem => hc (List.mem_filter.mp hmem).1
    · exact fun hmem => hc (closed_mem_bcast.mp hmem).1
    · exact fun hmem => hc (deleted_mem_bcast.mp hmem).1
    · exact fun m' hmem => hc (sent_mem_bcast hmem).1

/-- C1, an instance: of three live sessions 1, 2, 3 the second has a full
queue; after the step the live set is 1, 3. -/
theorem broadcast_step_witness :
    hubOneFull.LiveOpen ∧
    ∃ h' effs, hubOneFull.step (.broadcast hello) = .ok (h', effs) ∧ h'.clients = [1, 3] := by
  refine ⟨by unfold Hub.LiveOpen; decide, ?_⟩
  obtain ⟨h', effs, hstep, hcl, _⟩ :=
    broadcast_step hubOneFull hello (by unfold Hub.LiveOpen; decide)
  exact ⟨h', effs, hstep, by rw [hcl]; decide⟩

/-- C2 (leave step), for a hub state in which the session, if live, does not
have a closed queue, as in every state the hub reaches (`exec_inv`). A leave for a live session deletes it from the live set
and closes its queue, and changes neither the queue nor the membership of any
other session; a leave for a session outside the live set changes nothing; a
second leave is a no-op, so two leaves in a row yield what one leave yields. -/
theorem leave_step (h : Hub) (s : ClientId)
    (hopen : s ∈ h.clients → (h.send s).closed = false) :
    (s ∈ h.clients →
      ∃ h', h.step (.disconnect s) = .ok (h', [.deleted s, .closed s]) ∧
        h'.clients = h.clients.erase s ∧ s ∉ h'.clients ∧
        h'.send s = { buf := (h.send s).buf, closed := true } ∧
        ∀ c, c ≠ s → h'.send c = h.send c ∧ (c ∈ h'.clients ↔ c ∈ h.clients)) ∧
    (s ∉ h.clients → h.step (.disconnect s) = .ok (h, [])) ∧
    (∃ h' effs, h.step (.disconnect s) = .ok (h', effs) ∧
      h'.step (.disconnect s) = .ok (h', [])) ∧
    andThen (h.step (.disconnect s)) (Hub.step (.disconnect s)) = h.step (.disconnect s) := by
  have hlive : s ∈ h.clients →
      ∃ h', h.step (.disconnect s) = .ok (h', [.deleted s, .closed s]) ∧
        h'.clients = h.clients.erase s ∧ s ∉ h'.clients ∧
        h'.send s = { buf := (h.send s).buf, closed := true } ∧
        ∀ c, c ≠ s → h'.send c = h.send c ∧ (c ∈ h'.clients ↔ c ∈ h.clients) := by
    intro hs
    obtain ⟨h', hstep, hcl, hsd⟩ := step_disconnect_live hs (hopen hs)
    refine ⟨h', hstep, hcl, ?_, ?_, ?_⟩
    · rw [hcl]; exact fun hmem => ((h.keysNodup.mem_erase_iff).mp hmem).1 rfl
    · rw [hsd s]; simp
    · intro c hc
      refine ⟨by rw [hsd c]; simp [hc], ?_⟩
      rw [hcl]; exact List.mem_erase_of_ne hc
  have htwice : ∃ h' effs, h.step (.disconnect s) = .ok (h', effs) ∧
      h'.step (.disconnect s) = .ok (h', []) := by
    by_cases hs : s ∈ h.clients
    · obtain ⟨h', hstep, _, hnot, _⟩ := hlive hs
      exact ⟨h', _, hstep, step_disconnect_absent hnot⟩
    · exact ⟨h, [], step_disconnect_absent hs, step_disconnect_absent hs⟩
  refine ⟨hlive, fun hs => step_disconnect_absent hs, htwice, ?_⟩
  obtain ⟨h', effs, h1, h2⟩ := htwice
  rw [andThen_ok h1 h2, h1, List.append_nil]

/-- C2, an instance: client 2 of `hubOneFull` leaves. -/
theorem leave_step_witness :
    (2 ∈ hubOneFull.clients → (hubOneFull.send 2).closed = false) ∧
    (∃ h' effs, hubOneFull.step (.disconnect 2) = .ok (h', effs) ∧
      h'.step (.disconnect 2) = .ok (h', [])) :=
  ⟨fun _ => rfl, (leave_step hubOneFull 2 (fun _ => rfl)).2.2.1⟩

/-- C3, an instance: `sampleRun`, with an eviction followed by two leaves of
the evicted client. -/
theorem no_duplicate_removal_witness :
    (joins sampleRun).Nodup ∧
    ∃ h tr, Hub.empty.exec sampleRun = .ok (h, tr) ∧
      ∀ s, tr.count (.closed s) ≤ 1 ∧ tr.count (.deleted s) ≤ 1 :=
  ⟨by decide, no_duplicate_removal sampleRun (by decide)⟩

/-- C4, an instance: `sampleRun` followed by one more broadcast. -/
theorem live_set_invariant_witness :
    (joins (sampleRun ++ [.hub (.broadcast hello)])).Nodup ∧
    ∃ h tr h' effs, Hub.empty.exec sampleRun = .ok (h, tr) ∧
      h.act (.hub (.broadcast hello)) = .ok (h', effs) ∧ h.LiveOpen ∧ h'.LiveOpen ∧
      ∀ c m, Effect.sent c m ∈ effs →
        c ∈ h.clients ∧ (h.send c).closed = false ∧ c ∈ h'.clients :=
  ⟨by decide, live_set_invariant sampleRun (.hub (.broadcast hello)) (by decide)⟩

/-- C5, an instance: client 1 in `sampleRun`. -/
theorem delivery_order_witness :
    (joins sampleRun).count 1 ≤ 1 ∧
    ((∀ h tr, Hub.empty.exec sampleRun = .ok (h, tr) →
      (delivered 1 tr ++ (h.send 1).buf) <+: bcastsAfterJoin 1 sampleRun ∧
      (1 ∈ h.clients → delivered 1 tr ++ (h.send 1).buf = bcastsAfterJoin 1 sampleRun)) ∧
    ((joins sampleRun).Nodup → ∃ h tr, Hub.empty.exec sampleRun = .ok (h, tr))) :=
  ⟨by decide, delivery_order sampleRun 1 (by decide)⟩

/-! ## Decode failures, connection closes, heartbeat, eviction signal -/

/-- C6, the code at a frame that fails to decode. For every decoder and every
payload, also one the decoder rejects, `readContent` forwards the contents of
`data` after the decoding attempt to the hub's broadcast channel, after the log
line when the decoder reported an error. With a decoder that rejects the
payload and leaves `data` untouched, the empty envelope of `newDataSent` is
forwarded, and the hub enqueues it on the queue of a live session. -/
theorem malformed_frame_forwarded (unmarshal : Bytes → DataSent → DataSent × Bool) (now : Int)
    (message : Bytes) :
    (readContent unmarshal now [.frame message]).1
      = [.setReadLimit readLimit, .setReadDeadline (now + pongPeriod), .setPongHandler]
        ++ (if (unmarshal message newDataSent).2 then [ReadOp.logUnmarshalError] else [])
        ++ [.broadcast (unmarshal message newDataSent).1] ∧
    forwarded (readContent rejectAll now [.frame message]).1 = [newDataSent] ∧
    ∃ h', (Hub.empty.insertClient 7).step (.broadcast newDataSent)
        = .ok (h', [.sent 7 newDataSent]) ∧ (h'.send 7).buf = [newDataSent] := by
  refine ⟨?_, ?_, ?_⟩
  · simp [readContent, readLoop]
  · simp [readContent, readLoop, rejectAll, forwarded]
  · exact ⟨_, rfl, rfl⟩

theorem writeIter_no_close (marshal : DataSent → Bytes × Bool) (e : WriteEvent) :
    WriteOp.connClose ∉ (writeIter marshal e).1 := by
  cases e with
  | recv data ok r =>
    cases data with
    | none => cases ok <;> cases hn : r.nextWriterErr <;> simp [writeIter, hn]
    | some d =>
      cases ok <;> cases hn : r.nextWriterErr <;> cases hc : r.writerCloseErr <;>
        cases hm : (marshal d).2 <;> simp [writeIter, hn, hc, hm]
  | tick pingErr => cases pingErr <;> simp [writeIter]

theorem writeLoop_no_close (marshal : DataSent → Bytes × Bool) (evs : List WriteEvent) :
    WriteOp.connClose ∉ (writeLoop marshal evs).1 := by
  induction evs with
  | nil => simp [writeLoop]
  | cons e rest ih =>
    unfold writeLoop
    split
    · exact writeIter_no_close marshal e
    · simp [writeIter_no_close marshal e, ih]

/-- C8, as the code has it: when the inbound loop and the outbound loop of a
session have both exited (the outbound loop by a return or by a panic), each of
the two deferred functions has called `Close` on the connection exactly once,
so `Close` has been called exactly twice. -/
theorem adapter_closed_by_each_loop (unmarshal : Bytes → DataSent → DataSent × Bool)
    (marshal : DataSent → Bytes × Bool) (now : Int) (revs : List ReadEvent)
    (wevs : List WriteEvent)
    (hr : (readContent unmarshal now revs).2 = true)
    (hw : (writeContent marshal wevs).2 ≠ .waiting) :
    (readContent unmarshal now revs).1.count .connClose = 1 ∧
    (writeContent marshal wevs).1.count .connClose = 1 ∧
    (readContent unmarshal now revs).1.count .connClose
      + (writeContent marshal wevs).1.count .connClose = 2 := by
  have h1 : (readContent unmarshal now revs).1.count .connClose = 1 := by
    have hq := (readLoop_quiet unmarshal revs).2
    have hr' : (readLoop unmarshal revs).2 = true := hr
    simp [readContent, hr', List.count_append, List.count_cons, List.count_eq_zero.mpr hq]
  have h2 : (writeContent marshal wevs).1.count .connClose = 1 := by
    have hq := writeLoop_no_close marshal wevs
    have hw' : (writeLoop marshal wevs).2 ≠ .waiting := hw
    simp [writeContent, hw', List.count_append, List.count_cons, List.count_eq_zero.mpr hq]
  exact ⟨h1, h2, by rw [h1, h2]⟩

/-- C8, an instance: a read error ends the inbound loop and the closed-queue
signal ends the outbound loop. -/
theorem adapter_closed_by_each_loop_witness :
    (readContent rejectAll 0 [.err false]).2 = true ∧
    (writeContent encodeEmpty [.recv none false afterCloseFrame]).2 ≠ .waiting ∧
    (readContent rejectAll 0 [.err false]).1.count .connClose
      + (writeContent encodeEmpty [.recv none false afterCloseFrame]).1.count .connClose = 2 :=
  ⟨by decide, by decide,
   (adapter_closed_by_each_loop rejectAll encodeEmpty 0 [.err false]
      [.recv none false afterCloseFrame] (by decide) (by decide)).2.2⟩

/-- C8 as stated fails: after a read error and an eviction both loops have
exited and the number of `Close` calls on the connection is two, not one. -/
theorem adapter_closed_once_counterexample :
    (readContent rejectAll 0 [.err false]).2 = true ∧
    (writeContent encodeEmpty [.recv none false afterCloseFrame]).2 = .returned ∧
    (readContent rejectAll 0 [.err false]).1.count .connClose
      + (writeContent encodeEmpty [.recv none false afterCloseFrame]).1.count .connClose ≠ 1 := by
  decide

/-- C9 (heartbeat precedes timeout). The constant `pingPeriod`, computed as
`8 * pongPeriod / 10` with every intermediate value inside int64, is 8
seconds, which is exactly eight tenths of `pongPeriod` (10 seconds) and lies
strictly between 0 and `pongPeriod`; and the read deadlines `readContent`
installs are `now + pongPeriod` at loop start and at every pong it handles. -/
theorem heartbeat_precedes_timeout :
    pongPeriod = 10 * second ∧ pingPeriod = 8 * second ∧ 10 * pingPeriod = 8 * pongPeriod ∧
    0 < pingPeriod ∧ pingPeriod < pongPeriod ∧
    inInt64 pongPeriod ∧ inInt64 (8 * pongPeriod) ∧ inInt64 pingPeriod ∧
    (∀ t, pongHandler t = .setReadDeadline (t + pongPeriod)) ∧
    ∀ (unmarshal : Bytes → DataSent → DataSent × Bool) (now : Int) (evs : List ReadEvent),
      deadlines (readContent unmarshal now evs).1
        = (now :: pongTimes evs).map (fun t => t + pongPeriod) := by
  refine ⟨by decide, by decide, by decide, by decide, by decide,
    by unfold inInt64; decide, by unfold inInt64; decide, by unfold inInt64; decide,
    fun _ => rfl, ?_⟩
  intro unmarshal now evs
  simp only [readContent, deadlines_append, readLoop_deadlines]
  cases (readLoop unmarshal evs).2 <;> simp [deadlines]

/-- C10, the code at the closed-queue signal. For every result of the
connection, when `writeContent` receives the closed-queue signal it writes the
close frame and then goes on to request a data-frame writer with `NextWriter`;
it returns when that request fails, and otherwise stops at the dereference of
the nil envelope. The deferred function runs in both cases. -/
theorem eviction_signal_requests_writer (marshal : DataSent → Bytes × Bool) (r : ConnResults) :
    writeContent marshal [.recv none false r]
      = ([.newTicker pingPeriod, .setWriteDeadlineZero, .writeCloseFrame, .nextWriter]
          ++ (if r.nextWriterErr then [WriteOp.logNextWriter] else [])
          ++ [.tickerStop, .connClose, .logClosing],
         if r.nextWriterErr then .returned else .nilDeref) := by
  cases hr : r.nextWriterErr <;> simp [writeContent, writeLoop, writeIter, hr]

end ChatMoji

